import Mathlib

/-!
Shallow embedding of the filename classification and destination-path
derivation pipeline of the itunes-video-renamer repository
(src/info.py together with the extension allow-list of src/web.py).

Pure string computations of the Python source are translated to
executable Lean functions over `List Char` / `String`:

* `sanitize_filename`  — info.py, `sanitize_filename` (lines 38-51)
* `parse_movie_filename`, `parse_tv_show_filename`, `is_movie`,
  `is_tv_show` — info.py lines 53-116; the external guessit oracle is
  modelled as a `RawGuess` record (its fields are the `str()`-forms of
  the oracle values), and an oracle exception as `Except.error`
* `classify` — the movie / tv-show / skip dispatch of
  `process_directory` (info.py lines 478-542)
* `processDirectory_*` — the destination directory and filename built
  by `process_directory` (info.py lines 485-522)
* `convertFile_tv_filename` — the episode filename built by
  `convert_file` (info.py line 665)
* `withSuffixMp4` — `destination_path.with_suffix('.mp4')` performed by
  `process_file` (info.py line 426), modelled on the final path
  component (the filename)
* `batchSelected` — the recursive discovery patterns
  `rglob('*.[Mm][Pp]4')` / `rglob('*.[Mm][Kk][Vv]')` of
  `process_directory` (info.py line 465)
* `webSelected` — `item.suffix.lower() in VALID_EXTENSIONS` of
  src/web.py (lines 10 and 36)
-/

/-- Python `\s` / `str.isspace` for the ASCII range: the whitespace
characters that `re.sub(r'\s+', ' ', ...)` and `str.strip()` act on.
(Inside `sanitize_filename` every non-allow-listed character has already
been replaced by a plain space before these steps run, so the ASCII set
is exhaustive there.) -/
def pyWs (c : Char) : Bool :=
  c = ' ' || c = '\t' || c = '\n' || c = '\x0b' || c = '\x0c' || c = '\r'

/-- Membership in `valid_chars = f"-_.() {string.ascii_letters}{string.digits}"`
(info.py line 48). `Char.isAlpha` / `Char.isDigit` are exactly the ASCII
letters and digits. -/
def allowedChar (c : Char) : Bool :=
  c = '-' || c = '_' || c = '.' || c = '(' || c = ')' || c = ' '
    || c.isAlpha || c.isDigit

/-- One step of `re.sub(r'\s+', ' ', sanitized)`: the flag records whether
the previous input character was whitespace (i.e. we are inside a run that
has already emitted its single replacement space). -/
def cws : Bool → List Char → List Char
  | _, [] => []
  | b, c :: cs =>
    if pyWs c then
      if b then cws true cs else ' ' :: cws true cs
    else
      c :: cws false cs

/-- `re.sub(r'\s+', ' ', s)` (info.py line 50): every maximal run of
whitespace becomes a single space. -/
def collapseWsL (l : List Char) : List Char := cws false l

/-- Remove the maximal whitespace suffix (the right half of `str.strip()`). -/
def dropTrailingWs : List Char → List Char
  | [] => []
  | c :: cs =>
    match dropTrailingWs cs with
    | [] => if pyWs c then [] else [c]
    | d :: ds => c :: d :: ds

/-- Python `str.strip()`: drop leading and trailing whitespace. -/
def pyStripL (l : List Char) : List Char :=
  dropTrailingWs (l.dropWhile pyWs)

/-- `sanitize_filename` (info.py lines 38-51): replace every character not
in the allow-list by a space, collapse whitespace runs, strip. -/
def sanitizeL (l : List Char) : List Char :=
  pyStripL (collapseWsL (l.map fun c => if allowedChar c then c else ' '))

/-- String-level `sanitize_filename`. -/
def sanitize_filename (s : String) : String := ⟨sanitizeL s.data⟩

/-- Python `s.replace('.', ' ')` (a one-character substring replacement,
hence a character map). -/
def pyReplaceDot (s : String) : String :=
  ⟨s.data.map fun c => if c = '.' then ' ' else c⟩

/-- Python `s.strip()` at `String` level. -/
def pyStrip (s : String) : String := ⟨pyStripL s.data⟩

/-- `info.get(...).replace('.', ' ').strip()` — the title normalization
shared by the movie and episode parsers (info.py lines 65, 89, 92). -/
def normTitle (s : String) : String := pyStrip (pyReplaceDot s)

/-- Python `str.zfill(width)`: left-pad with zeros to `width`, keeping a
leading sign character in front of the padding. -/
def zfillL : List Char → Nat → List Char
  | [], w => List.replicate w '0'
  | c :: cs, w =>
    if w ≤ (c :: cs).length then c :: cs
    else if c = '-' ∨ c = '+' then c :: (List.replicate (w - (c :: cs).length) '0' ++ cs)
    else List.replicate (w - (c :: cs).length) '0' ++ (c :: cs)

/-- String-level `zfill`. -/
def zfill (s : String) (w : Nat) : String := ⟨zfillL s.data w⟩

/-- The record produced by the external guessit oracle, as consumed by
info.py: each field is `info.get(...)` — `none` when the key is absent —
and the payloads are the `str()`-forms of the oracle values. -/
structure RawGuess where
  kind : Option String
  title : Option String
  year : Option String
  season : Option String
  episode : Option String
  episode_title : Option String
deriving DecidableEq, Repr

/-- The classifier's output: the `MediaIdentity` tagged union of the spec.
`unresolved` stands for the `(None, ...)` sentinel returns of the parsers
(the file is skipped). -/
inductive MediaIdentity where
  | movie (title year : String)
  | episode (show_name season episode episode_title : String)
  | unresolved
deriving DecidableEq, Repr

/-- `parse_movie_filename` (info.py lines 53-74). The argument is the
oracle outcome: `Except.error` models a raised exception (caught by the
`except` clause, returning the sentinel). -/
def parse_movie_filename (g : Except Unit RawGuess) : Option (String × String) :=
  match g with
  | .error _ => none
  | .ok info =>
    if info.kind ≠ some "movie" then none
    else
      let movie_name := normTitle (info.title.getD "")
      let year := info.year.getD ""
      if movie_name = "" ∨ year = "" then none
      else some (movie_name, year)

/-- `parse_tv_show_filename` (info.py lines 76-101). -/
def parse_tv_show_filename (g : Except Unit RawGuess) :
    Option (String × String × String × String) :=
  match g with
  | .error _ => none
  | .ok info =>
    if info.kind ≠ some "episode" then none
    else
      let show_name := normTitle (info.title.getD "")
      let season := zfill (info.season.getD "0") 2
      let episode := zfill (info.episode.getD "0") 2
      let episode_name := normTitle (info.episode_title.getD "")
      if show_name = "" ∨ season = "" ∨ episode = "" then none
      else some (show_name, season, episode, episode_name)

/-- `is_movie` (info.py lines 103-108). -/
def is_movie (g : Except Unit RawGuess) : Bool :=
  (parse_movie_filename g).isSome

/-- `is_tv_show` (info.py lines 110-116): parse, then
`all([show_name, season, episode])`. -/
def is_tv_show (g : Except Unit RawGuess) : Bool :=
  match parse_tv_show_filename g with
  | none => false
  | some (sh, se, ep, _) => sh ≠ "" && se ≠ "" && ep ≠ ""

/-- The classification dispatch of `process_directory` (info.py lines
478-542): `if is_movie(...)` / `elif is_tv_show(...)` / `else` skip; the
defensive re-checks (`if not all(...): continue`) inside each branch also
collapse to the skip sentinel. -/
def classify (g : Except Unit RawGuess) : MediaIdentity :=
  if is_movie g then
    match parse_movie_filename g with
    | some (t, y) => .movie t y
    | none => .unresolved
  else if is_tv_show g then
    match parse_tv_show_filename g with
    | some (sh, se, ep, et) => .episode sh se ep et
    | none => .unresolved
  else .unresolved

/-- Movie destination directory built by `process_directory`
(info.py line 486): `output_base_path / "Movies" / sanitize_filename(movie_name)`. -/
def processDirectory_movie_dir (root movie_name : String) : List String :=
  [root, "Movies", sanitize_filename movie_name]

/-- Movie destination filename built by `process_directory`
(info.py line 490): `f"{sanitize_filename(movie_name)}{file_ext}"`. -/
def processDirectory_movie_filename (movie_name ext : String) : String :=
  sanitize_filename movie_name ++ ext

/-- Episode destination directory built by `process_directory`
(info.py line 517):
`output_base_path / "TV Shows" / sanitize_filename(show_name) / f"Season {season}"`. -/
def processDirectory_tv_dir (root show_name season : String) : List String :=
  [root, "TV Shows", sanitize_filename show_name, "Season " ++ season]

/-- Episode destination filename built by `process_directory`
(info.py line 521): `f"{episode.zfill(2)} {sanitize_filename(episode_name)}{file_ext}"`.
Note: no fallback title is applied when `episode_name` is empty. -/
def processDirectory_tv_filename (episode episode_name ext : String) : String :=
  zfill episode 2 ++ " " ++ sanitize_filename episode_name ++ ext

/-- Episode destination filename built by `convert_file` (info.py line
665): `f"{episode.zfill(2)} {sanitize_filename(episode_name or 'Episode ' + episode)}.mp4"`.
The `or` fallback fires exactly when `episode_name` is the empty string,
and the extension is the literal `.mp4`. -/
def convertFile_tv_filename (episode episode_name : String) : String :=
  zfill episode 2 ++ " " ++
    sanitize_filename (if episode_name = "" then "Episode " ++ episode else episode_name)
    ++ ".mp4"

/-- Index of the last '.' of a name, as `str.rfind('.')` computes it for
`pathlib.PurePath.suffix` / `with_suffix`. -/
def lastDotIdx (l : List Char) : Option Nat :=
  match l.reverse.findIdx? (fun c => c == '.') with
  | none => none
  | some j => some (l.length - 1 - j)

/-- `pathlib.PurePath.suffix` on a final path component: the substring
from the last dot, provided that dot is neither the first nor the last
character; otherwise the empty suffix. -/
def pySuffix (l : List Char) : List Char :=
  match lastDotIdx l with
  | none => []
  | some i => if 0 < i ∧ i < l.length - 1 then l.drop i else []

/-- `destination_path.with_suffix('.mp4')` as performed by `process_file`
(info.py line 426), modelled on the final path component: drop the old
suffix (if any) and append `.mp4`. -/
def withSuffixMp4 (name : String) : String :=
  match lastDotIdx name.data with
  | some i =>
    if 0 < i ∧ i < name.data.length - 1 then (⟨name.data.take i⟩ : String) ++ ".mp4"
    else name ++ ".mp4"
  | none => name ++ ".mp4"

/-- The episode filename actually given to ffmpeg by the
`process_directory` → `process_file` pipeline: the planned filename with
its suffix replaced by `.mp4` (info.py lines 521 and 426). -/
def processDirectory_tv_destination (episode episode_name ext : String) : String :=
  withSuffixMp4 (processDirectory_tv_filename episode episode_name ext)

/-- The planning portion of one `process_directory` iteration: the
destination directory segments and filename for a classified file, and no
plan for an unresolved one (the `else: ... continue` branch,
info.py lines 541-542). -/
def planForFile (identity : MediaIdentity) (root ext : String) :
    Option (List String × String) :=
  match identity with
  | .movie t _ => some (processDirectory_movie_dir root t, processDirectory_movie_filename t ext)
  | .episode sh se ep et =>
    some (processDirectory_tv_dir root sh se, processDirectory_tv_filename ep et ext)
  | .unresolved => none

/-- Classify-then-plan for a single candidate file (oracle outcome plus
the file's extension). -/
def planFile (root : String) (f : Except Unit RawGuess × String) :
    Option (List String × String) :=
  planForFile (classify f.1) root f.2

/-- The batch loop of `process_directory` (info.py lines 473-544): each
candidate file is planned independently; an unresolved file contributes
`none` (logged and skipped) and the loop continues. -/
def processBatch (root : String) (files : List (Except Unit RawGuess × String)) :
    List (Option (List String × String)) :=
  files.map (planFile root)

/-- The glob patterns `*.[Mm][Pp]4` and `*.[Mm][Kk][Vv]` of
`process_directory` (info.py line 465), applied to the reversed character
list of a file name: the name must end in a dot followed by the
letter-classes. -/
def batchSelRev : List Char → Bool
  | c3 :: c2 :: c1 :: c0 :: _ =>
    c0 = '.' &&
      (((c1 = 'M' || c1 = 'm') && (c2 = 'P' || c2 = 'p') && c3 = '4')
        || ((c1 = 'M' || c1 = 'm') && (c2 = 'K' || c2 = 'k') && (c3 = 'V' || c3 = 'v')))
  | _ => false

/-- Whether the batch entry point's recursive discovery
(`rglob('*.[Mm][Pp]4') + rglob('*.[Mm][Kk][Vv]')`, info.py line 465)
selects a file of the given name. -/
def batchSelected (name : String) : Bool :=
  batchSelRev name.data.reverse

/-- Whether the web UI's directory scan selects a file of the given name:
`item.suffix.lower() in VALID_EXTENSIONS` with
`VALID_EXTENSIONS = ('.mkv', '.avi', '.mp4', '.m4v')` (web.py lines 10, 36). -/
def webSelected (name : String) : Bool :=
  let s := (pySuffix name.data).map Char.toLower
  s == ".mkv".data || s == ".avi".data || s == ".mp4".data || s == ".m4v".data

/-- `l` has no two adjacent whitespace characters (in particular no double
space). -/
def noDoubleSpace : List Char → Bool
  | c1 :: c2 :: rest => !(pyWs c1 && pyWs c2) && noDoubleSpace (c2 :: rest)
  | _ => true

/-- `l` neither starts nor ends with whitespace. -/
def strippedOk (l : List Char) : Bool :=
  l.head?.all (fun c => !pyWs c) && l.getLast?.all (fun c => !pyWs c)

/-- A path component is clean: only allow-listed characters, no run of
two whitespace characters, no leading or trailing whitespace. -/
def cleanStr (s : String) : Bool :=
  s.data.all allowedChar && noDoubleSpace s.data && strippedOk s.data

example : sanitize_filename "Gold: Rush//*" = "Gold Rush" := by decide
example : sanitize_filename "" = "" := by decide
example : zfill "3" 2 = "03" := by decide
example : zfill "13" 2 = "13" := by decide
example : batchSelected "a.MP4" = true := by decide
example : batchSelected "a.avi" = false := by decide
example : webSelected "a.AVI" = true := by decide
example : processDirectory_tv_filename "05" "" ".mp4" = "05 .mp4" := by decide
example : convertFile_tv_filename "05" "" = "05 Episode 05.mp4" := by decide
example : withSuffixMp4 "13 Parkers Big Payday.mkv" = "13 Parkers Big Payday.mp4" := by decide
example :
    classify (.ok ⟨some "episode", some "Gold.Rush", none, some "3", some "13",
      some "Parkers.Big.Payday"⟩) =
      .episode "Gold Rush" "03" "13" "Parkers Big Payday" := by decide
example : classify (.ok ⟨some "movie", some "Inception", some "2010", none, none, none⟩) =
    .movie "Inception" "2010" := by decide
example : classify (.error ()) = .unresolved := by decide

/-! ### Character-level facts -/

theorem ws_allowed_eq_space (c : Char) (hw : pyWs c = true) (ha : allowedChar c = true) :
    c = ' ' := by
  simp only [pyWs, Bool.or_eq_true, decide_eq_true_eq] at hw
  rcases hw with ((((h | h) | h) | h) | h) | h <;> subst h <;>
    first
    | rfl
    | exact absurd ha (by decide)

theorem digit_not_ws (c : Char) (h : c.isDigit = true) : pyWs c = false := by
  cases hw : pyWs c with
  | false => rfl
  | true =>
    simp only [pyWs, Bool.or_eq_true, decide_eq_true_eq] at hw
    rcases hw with ((((h1 | h1) | h1) | h1) | h1) | h1 <;> subst h1 <;>
      exact absurd h (by decide)

theorem digit_allowed (c : Char) (h : c.isDigit = true) : allowedChar c = true := by
  simp [allowedChar, h]

/-! ### Whitespace-collapsing lemmas -/

theorem cws_nil (b : Bool) : cws b [] = [] := rfl

theorem cws_cons_ws_true (a : Char) (cs : List Char) (h : pyWs a = true) :
    cws true (a :: cs) = cws true cs := by
  simp [cws, h]

theorem cws_cons_ws_false (a : Char) (cs : List Char) (h : pyWs a = true) :
    cws false (a :: cs) = ' ' :: cws true cs := by
  simp [cws, h]

theorem cws_cons_nws (b : Bool) (a : Char) (cs : List Char) (h : pyWs a = false) :
    cws b (a :: cs) = a :: cws false cs := by
  simp [cws, h]

theorem cws_mem : ∀ (l : List Char) (b : Bool) (c : Char), c ∈ cws b l → c = ' ' ∨ c ∈ l := by
  intro l
  induction l with
  | nil => intro b c h; simp [cws] at h
  | cons a cs ih =>
    intro b c h
    cases hw : pyWs a with
    | true =>
      cases b with
      | true =>
        rw [cws_cons_ws_true a cs hw] at h
        rcases ih true c h with h1 | h1
        · exact Or.inl h1
        · exact Or.inr (List.mem_cons_of_mem a h1)
      | false =>
        rw [cws_cons_ws_false a cs hw] at h
        rcases List.mem_cons.mp h with h1 | h1
        · exact Or.inl h1
        · rcases ih true c h1 with h2 | h2
          · exact Or.inl h2
          · exact Or.inr (List.mem_cons_of_mem a h2)
    | false =>
      rw [cws_cons_nws b a cs hw] at h
      rcases List.mem_cons.mp h with h1 | h1
      · subst h1; exact Or.inr (List.mem_cons_self c cs)
      · rcases ih false c h1 with h2 | h2
        · exact Or.inl h2
        · exact Or.inr (List.mem_cons_of_mem a h2)

theorem cws_true_head : ∀ (l : List Char) (c : Char),
    (cws true l).head? = some c → pyWs c = false := by
  intro l
  induction l with
  | nil => intro c h; simp [cws] at h
  | cons a cs ih =>
    intro c h
    cases hw : pyWs a with
    | true =>
      rw [cws_cons_ws_true a cs hw] at h
      exact ih c h
    | false =>
      rw [cws_cons_nws true a cs hw, List.head?_cons] at h
      cases h
      exact hw

theorem nd_tail (c : Char) (l : List Char) (h : noDoubleSpace (c :: l) = true) :
    noDoubleSpace l = true := by
  cases l with
  | nil => rfl
  | cons d ds =>
    simp only [noDoubleSpace, Bool.and_eq_true] at h
    exact h.2

theorem nd_cons (c : Char) (l : List Char)
    (h1 : ∀ d, l.head? = some d → (pyWs c && pyWs d) = false)
    (h2 : noDoubleSpace l = true) : noDoubleSpace (c :: l) = true := by
  cases l with
  | nil => rfl
  | cons d ds =>
    simp only [noDoubleSpace, Bool.and_eq_true, Bool.not_eq_true']
    exact ⟨h1 d rfl, h2⟩

theorem nd_cws : ∀ (l : List Char) (b : Bool), noDoubleSpace (cws b l) = true := by
  intro l
  induction l with
  | nil => intro b; rfl
  | cons a cs ih =>
    intro b
    cases hw : pyWs a with
    | true =>
      cases b with
      | true => rw [cws_cons_ws_true a cs hw]; exact ih true
      | false =>
        rw [cws_cons_ws_false a cs hw]
        refine nd_cons _ _ (fun d hd => ?_) (ih true)
        have := cws_true_head cs d hd
        simp [this]
    | false =>
      rw [cws_cons_nws b a cs hw]
      refine nd_cons _ _ (fun d hd => ?_) (ih false)
      simp [hw]

theorem cws_true_eq (l : List Char) (h : ∀ c, l.head? = some c → pyWs c = false) :
    cws true l = cws false l := by
  cases l with
  | nil => rfl
  | cons a cs =>
    have ha := h a rfl
    rw [cws_cons_nws true a cs ha, cws_cons_nws false a cs ha]

theorem cws_fix : ∀ (l : List Char), noDoubleSpace l = true →
    (∀ c ∈ l, pyWs c = true → c = ' ') → cws false l = l := by
  intro l
  induction l with
  | nil => intro _ _; rfl
  | cons a cs ih =>
    intro hnd hsp
    cases hw : pyWs a with
    | true =>
      have ha : a = ' ' := hsp a (List.mem_cons_self a cs) hw
      subst ha
      rw [cws_cons_ws_false ' ' cs hw]
      have hhead : ∀ c, cs.head? = some c → pyWs c = false := by
        intro c hc
        cases cs with
        | nil => simp at hc
        | cons d ds =>
          rw [List.head?_cons] at hc
          cases hc
          simp only [noDoubleSpace, Bool.and_eq_true, Bool.not_eq_true',
            Bool.and_eq_false_iff] at hnd
          rcases hnd.1 with h1 | h1
          · exact absurd hw (by simp [h1])
          · exact h1
      rw [cws_true_eq cs hhead,
        ih (nd_tail _ _ hnd) (fun c hc hcw => hsp c (List.mem_cons_of_mem _ hc) hcw)]
    | false =>
      rw [cws_cons_nws false a cs hw,
        ih (nd_tail _ _ hnd) (fun c hc hcw => hsp c (List.mem_cons_of_mem _ hc) hcw)]

/-! ### Strip lemmas -/

theorem dropWhile_ws_head : ∀ (l : List Char) (c : Char),
    (l.dropWhile pyWs).head? = some c → pyWs c = false := by
  intro l
  induction l with
  | nil => intro c h; simp at h
  | cons a cs ih =>
    intro c h
    cases hw : pyWs a with
    | true =>
      rw [List.dropWhile_cons, if_pos (by simp [hw])] at h
      exact ih c h
    | false =>
      rw [List.dropWhile_cons, if_neg (by simp [hw]), List.head?_cons] at h
      cases h
      exact hw

theorem dt_mem : ∀ (l : List Char) (c : Char), c ∈ dropTrailingWs l → c ∈ l := by
  intro l
  induction l with
  | nil => intro c h; simp [dropTrailingWs] at h
  | cons a cs ih =>
    intro c h
    rw [dropTrailingWs] at h
    cases hdt : dropTrailingWs cs with
    | nil =>
      rw [hdt] at h
      by_cases hw : pyWs a
      · rw [if_pos hw] at h; simp at h
      · rw [if_neg hw] at h
        rcases List.mem_cons.mp h with h1 | h1
        · subst h1; exact List.mem_cons_self c cs
        · simp at h1
    | cons d ds =>
      rw [hdt] at h
      rcases List.mem_cons.mp h with h1 | h1
      · subst h1; exact List.mem_cons_self c cs
      · exact List.mem_cons_of_mem a (ih c (hdt ▸ h1))

theorem dt_head : ∀ (l : List Char), dropTrailingWs l ≠ [] →
    (dropTrailingWs l).head? = l.head? := by
  intro l
  cases l with
  | nil => intro h; rfl
  | cons a cs =>
    intro h
    rw [dropTrailingWs] at h ⊢
    cases hdt : dropTrailingWs cs with
    | nil =>
      by_cases hw : pyWs a
      · simp [hw, hdt] at h
      · simp [hw]
    | cons d ds => rfl

theorem dt_last : ∀ (l : List Char) (c : Char),
    (dropTrailingWs l).getLast? = some c → pyWs c = false := by
  intro l
  induction l with
  | nil => intro c h; simp [dropTrailingWs] at h
  | cons a cs ih =>
    intro c h
    rw [dropTrailingWs] at h
    cases hdt : dropTrailingWs cs with
    | nil =>
      rw [hdt] at h
      by_cases hw : pyWs a
      · rw [if_pos hw] at h; simp at h
      · rw [if_neg hw] at h
        simp only [List.getLast?_singleton, Option.some.injEq] at h
        subst h
        simpa using hw
    | cons d ds =>
      rw [hdt, List.getLast?_cons_cons] at h
      exact ih c (hdt ▸ h)

theorem dt_nd : ∀ (l : List Char), noDoubleSpace l = true →
    noDoubleSpace (dropTrailingWs l) = true := by
  intro l
  induction l with
  | nil => intro _; rfl
  | cons a cs ih =>
    intro hnd
    rw [dropTrailingWs]
    cases hdt : dropTrailingWs cs with
    | nil =>
      by_cases hw : pyWs a
      · rw [if_pos hw]; rfl
      · rw [if_neg hw]; rfl
    | cons d ds =>
      refine nd_cons a (d :: ds) (fun e he => ?_) (hdt ▸ ih (nd_tail _ _ hnd))
      rw [List.head?_cons] at he
      cases he
      have hhd : (dropTrailingWs cs).head? = cs.head? :=
        dt_head cs (by rw [hdt]; exact List.cons_ne_nil d ds)
      rw [hdt, List.head?_cons] at hhd
      cases cs with
      | nil => simp at hhd
      | cons e es =>
        rw [List.head?_cons] at hhd
        cases hhd
        simp only [noDoubleSpace, Bool.and_eq_true, Bool.not_eq_true'] at hnd
        exact hnd.1

theorem dt_fix : ∀ (l : List Char),
    (∀ c, l.getLast? = some c → pyWs c = false) → dropTrailingWs l = l := by
  intro l
  induction l with
  | nil => intro _; rfl
  | cons a cs ih =>
    intro hlast
    rw [dropTrailingWs]
    cases cs with
    | nil =>
      have ha := hlast a (by rfl)
      rw [show dropTrailingWs [] = [] from rfl, if_neg (by simp [ha])]
    | cons e es =>
      have hcs : dropTrailingWs (e :: es) = e :: es :=
        ih (fun c hc => hlast c (by rw [List.getLast?_cons_cons]; exact hc))
      rw [hcs]

/-! ### Sanitizer invariants -/

theorem mem_of_dropWhile_ws : ∀ (l : List Char) (c : Char), c ∈ l.dropWhile pyWs → c ∈ l := by
  intro l
  induction l with
  | nil => intro c h; simp at h
  | cons a cs ih =>
    intro c h
    by_cases hw : pyWs a
    · rw [List.dropWhile_cons, if_pos hw] at h
      exact List.mem_cons_of_mem a (ih c h)
    · rw [List.dropWhile_cons, if_neg hw] at h
      exact h

theorem nd_dropWhile : ∀ (l : List Char), noDoubleSpace l = true →
    noDoubleSpace (l.dropWhile pyWs) = true := by
  intro l
  induction l with
  | nil => intro _; rfl
  | cons a cs ih =>
    intro hnd
    by_cases hw : pyWs a
    · rw [List.dropWhile_cons, if_pos hw]
      exact ih (nd_tail _ _ hnd)
    · rw [List.dropWhile_cons, if_neg hw]
      exact hnd

theorem dropWhile_ws_all_nil : ∀ (l : List Char), (∀ c ∈ l, pyWs c = true) →
    l.dropWhile pyWs = [] := by
  intro l
  induction l with
  | nil => intro _; rfl
  | cons a cs ih =>
    intro h
    rw [List.dropWhile_cons, if_pos (h a (List.mem_cons_self a cs))]
    exact ih (fun c hc => h c (List.mem_cons_of_mem a hc))

theorem dropWhile_ws_fix (l : List Char) (h : ∀ c, l.head? = some c → pyWs c = false) :
    l.dropWhile pyWs = l := by
  cases l with
  | nil => rfl
  | cons a cs =>
    rw [List.dropWhile_cons, if_neg (by simp [h a rfl])]

theorem strippedOk_head (l : List Char) (h : strippedOk l = true) :
    ∀ c, l.head? = some c → pyWs c = false := by
  intro c hc
  unfold strippedOk at h
  rw [Bool.and_eq_true] at h
  have := h.1
  rw [hc] at this
  simpa [Option.all] using this

theorem strippedOk_last (l : List Char) (h : strippedOk l = true) :
    ∀ c, l.getLast? = some c → pyWs c = false := by
  intro c hc
  unfold strippedOk at h
  rw [Bool.and_eq_true] at h
  have := h.2
  rw [hc] at this
  simpa [Option.all] using this

theorem sanitizeL_mem_allowed (l : List Char) :
    ∀ c ∈ sanitizeL l, allowedChar c = true := by
  intro c hc
  unfold sanitizeL pyStripL collapseWsL at hc
  have h1 := dt_mem _ c hc
  have h2 := mem_of_dropWhile_ws _ c h1
  rcases cws_mem _ false c h2 with h3 | h3
  · subst h3; decide
  · rcases List.mem_map.mp h3 with ⟨x, _, hfx⟩
    by_cases hx : allowedChar x
    · rw [if_pos hx] at hfx; rw [← hfx]; exact hx
    · rw [if_neg hx] at hfx; rw [← hfx]; decide

theorem sanitizeL_nd (l : List Char) : noDoubleSpace (sanitizeL l) = true := by
  unfold sanitizeL pyStripL collapseWsL
  exact dt_nd _ (nd_dropWhile _ (nd_cws _ false))

theorem sanitizeL_stripped (l : List Char) : strippedOk (sanitizeL l) = true := by
  have hhead : ∀ c, (sanitizeL l).head? = some c → pyWs c = false := by
    intro c hc
    unfold sanitizeL pyStripL collapseWsL at hc
    have hne : dropTrailingWs
        ((cws false (l.map fun c => if allowedChar c then c else ' ')).dropWhile pyWs) ≠ [] := by
      intro h0
      rw [h0] at hc
      simp at hc
    rw [dt_head _ hne] at hc
    exact dropWhile_ws_head _ c hc
  have hlast : ∀ c, (sanitizeL l).getLast? = some c → pyWs c = false := by
    intro c hc
    unfold sanitizeL pyStripL collapseWsL at hc
    exact dt_last _ c hc
  unfold strippedOk
  rw [Bool.and_eq_true]
  constructor
  · cases hh : (sanitizeL l).head? with
    | none => rfl
    | some c => simpa [Option.all] using hhead c hh
  · cases hh : (sanitizeL l).getLast? with
    | none => rfl
    | some c => simpa [Option.all] using hlast c hh

theorem map_allowed_id : ∀ (l : List Char), (∀ c ∈ l, allowedChar c = true) →
    (l.map fun c => if allowedChar c then c else ' ') = l := by
  intro l
  induction l with
  | nil => intro _; rfl
  | cons a cs ih =>
    intro h
    rw [List.map_cons, if_pos (h a (List.mem_cons_self a cs)),
      ih (fun c hc => h c (List.mem_cons_of_mem a hc))]

theorem sanitizeL_fix (l : List Char) (h1 : ∀ c ∈ l, allowedChar c = true)
    (h2 : noDoubleSpace l = true) (h3 : strippedOk l = true) : sanitizeL l = l := by
  unfold sanitizeL collapseWsL pyStripL
  rw [map_allowed_id l h1,
    cws_fix l h2 (fun c hc hw => ws_allowed_eq_space c hw (h1 c hc)),
    dropWhile_ws_fix l (strippedOk_head l h3)]
  exact dt_fix l (strippedOk_last l h3)

/-- C4: `sanitize` is idempotent — for every string `s`,
`sanitize_filename (sanitize_filename s) = sanitize_filename s`; an
already-sanitized path component is unchanged when sanitized again. -/
theorem c4_sanitize_idempotent (s : String) :
    sanitize_filename (sanitize_filename s) = sanitize_filename s := by
  show (⟨sanitizeL (sanitizeL s.data)⟩ : String) = ⟨sanitizeL s.data⟩
  rw [sanitizeL_fix (sanitizeL s.data) (sanitizeL_mem_allowed s.data)
    (sanitizeL_nd s.data) (sanitizeL_stripped s.data)]

/-- C5: `sanitize_filename` is a total function whose output, for every
input, contains only allow-listed characters, no two adjacent whitespace
characters and no leading or trailing whitespace; the empty input, and any
input made only of disallowed characters, yields the empty string. -/
theorem c5_sanitize_output_clean (s : String) :
    cleanStr (sanitize_filename s) = true
    ∧ sanitize_filename "" = ""
    ∧ ((∀ c ∈ s.data, allowedChar c = false) → sanitize_filename s = "") := by
  refine ⟨?_, by decide, ?_⟩
  · unfold cleanStr
    rw [Bool.and_eq_true, Bool.and_eq_true]
    refine ⟨⟨?_, ?_⟩, ?_⟩
    · exact List.all_eq_true.mpr (fun c hc => sanitizeL_mem_allowed s.data c hc)
    · exact sanitizeL_nd s.data
    · exact sanitizeL_stripped s.data
  · intro hall
    suffices h : sanitizeL s.data = [] by
      show (⟨sanitizeL s.data⟩ : String) = ""
      rw [h]
    have hmap : ∀ c ∈ (s.data.map fun c => if allowedChar c then c else ' '), pyWs c = true := by
      intro c hc
      rcases List.mem_map.mp hc with ⟨x, hx, hfx⟩
      rw [if_neg (by simp [hall x hx])] at hfx
      rw [← hfx]
      decide
    have hcoll : ∀ c ∈ collapseWsL (s.data.map fun c => if allowedChar c then c else ' '),
        pyWs c = true := by
      intro c hc
      rcases cws_mem _ false c hc with h3 | h3
      · subst h3; decide
      · exact hmap c h3
    unfold sanitizeL pyStripL
    rw [dropWhile_ws_all_nil _ hcoll]
    rfl

/-- Witness for C5 at a concrete all-disallowed input. -/
theorem c5_witness : sanitize_filename "///" = "" :=
  (c5_sanitize_output_clean "///").2.2 (by decide)

/-! ### zfill lemmas -/

theorem zfillL_two_length : ∀ (l : List Char), 2 ≤ (zfillL l 2).length := by
  intro l
  cases l with
  | nil => simp [zfillL]
  | cons c cs =>
    rw [zfillL]
    split_ifs with h hs
    · exact h
    · simp only [List.length_cons, List.length_append, List.length_replicate]
      simp only [List.length_cons] at h
      omega
    · simp only [List.length_cons, List.length_append, List.length_replicate]
      simp only [List.length_cons] at h
      omega

theorem zfill_two_length (s : String) : 2 ≤ (zfill s 2).length :=
  zfillL_two_length s.data

theorem zfill_two_ne (s : String) : zfill s 2 ≠ "" := by
  intro h
  have hd : (zfill s 2).data = [] := by rw [h]
  have hlen := zfillL_two_length s.data
  rw [show (zfill s 2).data = zfillL s.data 2 from rfl] at hd
  rw [hd] at hlen
  simp at hlen

theorem zfillL_digits : ∀ (l : List Char) (w : Nat), (∀ c ∈ l, c.isDigit = true) →
    ∀ c ∈ zfillL l w, c.isDigit = true := by
  intro l w h
  cases l with
  | nil =>
    intro c hc
    rw [zfillL] at hc
    rw [List.eq_of_mem_replicate hc]
    decide
  | cons a cs =>
    intro c hc
    rw [zfillL] at hc
    split_ifs at hc with h1 hs
    · exact h c hc
    · have ha := h a (List.mem_cons_self a cs)
      rcases hs with h2 | h2 <;> subst h2 <;> exact absurd ha (by decide)
    · rcases List.mem_append.mp hc with h2 | h2
      · rw [List.eq_of_mem_replicate h2]; decide
      · exact h c h2

/-! ### Parser reduction equations -/

theorem parse_movie_ok (info : RawGuess) :
    parse_movie_filename (.ok info) =
      if info.kind ≠ some "movie" then none
      else if normTitle (info.title.getD "") = "" ∨ info.year.getD "" = "" then none
      else some (normTitle (info.title.getD ""), info.year.getD "") := rfl

theorem parse_tv_ok (info : RawGuess) :
    parse_tv_show_filename (.ok info) =
      if info.kind ≠ some "episode" then none
      else if normTitle (info.title.getD "") = "" ∨ zfill (info.season.getD "0") 2 = ""
          ∨ zfill (info.episode.getD "0") 2 = "" then none
      else some (normTitle (info.title.getD ""), zfill (info.season.getD "0") 2,
        zfill (info.episode.getD "0") 2, normTitle (info.episode_title.getD "")) := rfl

/-! ### Classifier behaviour -/

/-- C6: for a `RawGuess` of kind movie, `classify` returns
`Movie{title, year}` with the title dot-replaced and trimmed and the year
the string form of the guess's year when both are non-empty (the code
tests the normalized title), and `Unresolved` when the normalized title or
the year is empty. -/
theorem c6_classify_movie (g : RawGuess) (hk : g.kind = some "movie") :
    classify (.ok g) =
      if normTitle (g.title.getD "") = "" ∨ g.year.getD "" = "" then .unresolved
      else .movie (normTitle (g.title.getD "")) (g.year.getD "") := by
  have hpm : parse_movie_filename (.ok g) =
      if normTitle (g.title.getD "") = "" ∨ g.year.getD "" = "" then none
      else some (normTitle (g.title.getD ""), g.year.getD "") := by
    rw [parse_movie_ok, hk]
    simp
  have hpt : parse_tv_show_filename (.ok g) = none := by
    rw [parse_tv_ok, hk]
    simp
  by_cases hcond : normTitle (g.title.getD "") = "" ∨ g.year.getD "" = ""
  · rw [if_pos hcond] at hpm ⊢
    simp [classify, is_movie, is_tv_show, hpm, hpt]
  · rw [if_neg hcond] at hpm ⊢
    simp [classify, is_movie, hpm]

/-- Witness for C6 at a concrete complete movie guess. -/
theorem c6_witness :
    classify (.ok ⟨some "movie", some "Inception", some "2010", none, none, none⟩) =
      .movie "Inception" "2010" := by
  rw [c6_classify_movie ⟨some "movie", some "Inception", some "2010", none, none, none⟩ rfl]
  decide

/-- C7: for a `RawGuess` of kind episode with non-empty (normalized)
title and present non-empty season and episode, `classify` returns an
`Episode` whose season and episode are the guess values zero-padded on
the left to width 2. -/
theorem c7_classify_episode_pad (g : RawGuess) (s e : String)
    (hk : g.kind = some "episode")
    (ht : normTitle (g.title.getD "") ≠ "")
    (hs : g.season = some s) (he : g.episode = some e)
    (hs0 : s ≠ "") (he0 : e ≠ "") :
    classify (.ok g) =
      .episode (normTitle (g.title.getD "")) (zfill s 2) (zfill e 2)
        (normTitle (g.episode_title.getD "")) := by
  have hz1 : zfill s 2 ≠ "" := zfill_two_ne s
  have hz2 : zfill e 2 ≠ "" := zfill_two_ne e
  have hpm : parse_movie_filename (.ok g) = none := by
    rw [parse_movie_ok, hk]
    simp
  have hpt : parse_tv_show_filename (.ok g) =
      some (normTitle (g.title.getD ""), zfill s 2, zfill e 2,
        normTitle (g.episode_title.getD "")) := by
    rw [parse_tv_ok, hk, hs, he]
    simp [ht, hz1, hz2]
  simp [classify, is_movie, is_tv_show, hpm, hpt, ht, hz1, hz2]

/-- Witness for C7: season "3" pads to "03", episode "13" stays "13". -/
theorem c7_witness :
    classify (.ok ⟨some "episode", some "Gold.Rush", none, some "3", some "13",
      some "Parkers.Big.Payday"⟩) =
      .episode "Gold Rush" "03" "13" "Parkers Big Payday" := by
  rw [c7_classify_episode_pad _ "3" "13" rfl (by decide) rfl rfl (by decide) (by decide)]
  decide

/-- C10: for a `RawGuess` of kind episode, a missing season or episode
never by itself yields `Unresolved` — the classification is unresolved
exactly when the normalized show title is empty — and every `Episode`
returned carries season and episode strings of length at least 2. -/
theorem c10_episode_defaults (g : RawGuess) (hk : g.kind = some "episode") :
    (classify (.ok g) = .unresolved ↔ normTitle (g.title.getD "") = "")
    ∧ (∀ sh se ep et, classify (.ok g) = .episode sh se ep et →
        2 ≤ se.length ∧ 2 ≤ ep.length) := by
  have hpm : parse_movie_filename (.ok g) = none := by
    rw [parse_movie_ok, hk]
    simp
  have hz1 : zfill (g.season.getD "0") 2 ≠ "" := zfill_two_ne _
  have hz2 : zfill (g.episode.getD "0") 2 ≠ "" := zfill_two_ne _
  by_cases hT : normTitle (g.title.getD "") = ""
  · have hpt : parse_tv_show_filename (.ok g) = none := by
      rw [parse_tv_ok, hk]
      simp [hT]
    have hcl : classify (.ok g) = .unresolved := by
      simp [classify, is_movie, is_tv_show, hpm, hpt]
    refine ⟨by simp [hcl, hT], ?_⟩
    intro sh se ep et h
    rw [hcl] at h
    cases h
  · have hpt : parse_tv_show_filename (.ok g) =
        some (normTitle (g.title.getD ""), zfill (g.season.getD "0") 2,
          zfill (g.episode.getD "0") 2, normTitle (g.episode_title.getD "")) := by
      rw [parse_tv_ok, hk]
      simp [hT, hz1, hz2]
    have hcl : classify (.ok g) =
        .episode (normTitle (g.title.getD "")) (zfill (g.season.getD "0") 2)
          (zfill (g.episode.getD "0") 2) (normTitle (g.episode_title.getD "")) := by
      simp [classify, is_movie, is_tv_show, hpm, hpt, hT, hz1, hz2]
    refine ⟨by simp [hcl, hT], ?_⟩
    intro sh se ep et h
    rw [hcl] at h
    cases h
    exact ⟨zfill_two_length _, zfill_two_length _⟩

/-- Witness for C10: an episode guess with no season and no episode
fields is still classified (not unresolved). -/
theorem c10_witness :
    classify (.ok ⟨some "episode", some "Show", none, none, none, none⟩) ≠ .unresolved :=
  fun h => absurd ((c10_episode_defaults _ rfl).1.mp h) (by decide)

/-- C9: classification is total — an oracle error, a guess of a kind
other than movie/episode, and incomplete movie or episode fields all
yield the `Unresolved` sentinel — the planner produces no plan for
`Unresolved`, and the batch loop processes each file independently, so a
skipped file never stops the batch. -/
theorem c9_unresolved_skip :
    classify (.error ()) = .unresolved
    ∧ (∀ g : RawGuess, g.kind ≠ some "movie" → g.kind ≠ some "episode" →
        classify (.ok g) = .unresolved)
    ∧ (∀ g : RawGuess, g.kind = some "movie" →
        (normTitle (g.title.getD "") = "" ∨ g.year.getD "" = "") →
        classify (.ok g) = .unresolved)
    ∧ (∀ g : RawGuess, g.kind = some "episode" → normTitle (g.title.getD "") = "" →
        classify (.ok g) = .unresolved)
    ∧ (∀ root ext, planForFile .unresolved root ext = none)
    ∧ (∀ (root : String) (pre post : List (Except Unit RawGuess × String)) f,
        processBatch root (pre ++ f :: post) =
          processBatch root pre ++ planFile root f :: processBatch root post) := by
  refine ⟨rfl, ?_, ?_, ?_, fun root ext => rfl, ?_⟩
  · intro g h1 h2
    have hpm : parse_movie_filename (.ok g) = none := by
      rw [parse_movie_ok, if_pos h1]
    have hpt : parse_tv_show_filename (.ok g) = none := by
      rw [parse_tv_ok, if_pos h2]
    simp [classify, is_movie, is_tv_show, hpm, hpt]
  · intro g hk hcond
    have hpm : parse_movie_filename (.ok g) = none := by
      rw [parse_movie_ok, hk]
      simp [hcond]
    have hpt : parse_tv_show_filename (.ok g) = none := by
      rw [parse_tv_ok, hk]
      simp
    simp [classify, is_movie, is_tv_show, hpm, hpt]
  · intro g hk hT
    have hpm : parse_movie_filename (.ok g) = none := by
      rw [parse_movie_ok, hk]
      simp
    have hpt : parse_tv_show_filename (.ok g) = none := by
      rw [parse_tv_ok, hk]
      simp [hT]
    simp [classify, is_movie, is_tv_show, hpm, hpt]
  · intro root pre post f
    simp [processBatch]

/-- Witness for C9 at a concrete unknown-kind guess. -/
theorem c9_witness :
    classify (.ok ⟨some "unknown", some "x", none, none, none, none⟩) = .unresolved :=
  c9_unresolved_skip.2.1 _ (by decide) (by decide)

/-! ### String and cleanliness helpers -/

theorem str_data_append (s t : String) : (s ++ t).data = s.data ++ t.data := by
  cases s
  cases t
  rfl

theorem str_append_empty_right (s : String) : s ++ "" = s := by
  cases s with
  | mk l =>
    show (⟨l ++ []⟩ : String) = ⟨l⟩
    rw [List.append_nil]

theorem str_empty_append_left (s : String) : "" ++ s = s := by
  cases s with
  | mk l =>
    show (⟨[] ++ l⟩ : String) = ⟨l⟩
    rw [List.nil_append]

theorem str_ne_empty_data (s : String) (h : s ≠ "") : s.data ≠ [] :=
  fun hd => h (String.ext hd)

theorem head?_mem_chr : ∀ (l : List Char) (c : Char), l.head? = some c → c ∈ l := by
  intro l c h
  cases l with
  | nil => simp at h
  | cons a cs =>
    rw [List.head?_cons] at h
    cases h
    exact List.mem_cons_self c cs

theorem getLast?_mem_chr : ∀ (l : List Char) (c : Char), l.getLast? = some c → c ∈ l := by
  intro l
  induction l with
  | nil => intro c h; simp at h
  | cons a cs ih =>
    intro c h
    cases cs with
    | nil =>
      simp only [List.getLast?_singleton, Option.some.injEq] at h
      subst h
      exact List.mem_cons_self _ _
    | cons d ds =>
      rw [List.getLast?_cons_cons] at h
      exact List.mem_cons_of_mem a (ih c h)

theorem head_append_left : ∀ (a b : List Char), a ≠ [] → (a ++ b).head? = a.head? := by
  intro a b h
  cases a with
  | nil => exact absurd rfl h
  | cons c cs => rw [List.cons_append, List.head?_cons, List.head?_cons]

theorem glast_append : ∀ (a b : List Char), b ≠ [] → (a ++ b).getLast? = b.getLast? := by
  intro a b hb
  induction a with
  | nil => rw [List.nil_append]
  | cons c cs ih =>
    rw [List.cons_append]
    cases hcb : cs ++ b with
    | nil => exact absurd (List.append_eq_nil.mp hcb).2 hb
    | cons d ds =>
      rw [List.getLast?_cons_cons, ← hcb, ih]

theorem nd_of_no_ws : ∀ (l : List Char), (∀ c ∈ l, pyWs c = false) →
    noDoubleSpace l = true := by
  intro l
  induction l with
  | nil => intro _; rfl
  | cons a cs ih =>
    intro h
    refine nd_cons a cs (fun d _ => ?_) (ih (fun c hc => h c (List.mem_cons_of_mem a hc)))
    rw [h a (List.mem_cons_self a cs)]
    rfl

theorem strippedOk_of (l : List Char)
    (hh : ∀ c, l.head? = some c → pyWs c = false)
    (hl : ∀ c, l.getLast? = some c → pyWs c = false) : strippedOk l = true := by
  unfold strippedOk
  rw [Bool.and_eq_true]
  constructor
  · cases hx : l.head? with
    | none => rfl
    | some c => simpa [Option.all] using hh c hx
  · cases hx : l.getLast? with
    | none => rfl
    | some c => simpa [Option.all] using hl c hx

theorem nd_append (a b : List Char) (ha : noDoubleSpace a = true) (hb : noDoubleSpace b = true)
    (hbd : ∀ x y, a.getLast? = some x → b.head? = some y → (pyWs x && pyWs y) = false) :
    noDoubleSpace (a ++ b) = true := by
  induction a with
  | nil => rw [List.nil_append]; exact hb
  | cons c cs ih =>
    cases cs with
    | nil =>
      rw [List.cons_append, List.nil_append]
      exact nd_cons c b (fun d hd => hbd c d rfl hd) hb
    | cons d ds =>
      rw [List.cons_append]
      refine nd_cons c ((d :: ds) ++ b) (fun e he => ?_) ?_
      · rw [List.cons_append, List.head?_cons] at he
        cases he
        simp only [noDoubleSpace, Bool.and_eq_true, Bool.not_eq_true'] at ha
        exact ha.1
      · exact ih (nd_tail _ _ ha)
          (fun x y hx hy => hbd x y (by rw [List.getLast?_cons_cons]; exact hx) hy)

theorem cleanStr_parts (s : String)
    (h1 : ∀ c ∈ s.data, allowedChar c = true)
    (h2 : noDoubleSpace s.data = true)
    (h3 : strippedOk s.data = true) : cleanStr s = true := by
  unfold cleanStr
  rw [Bool.and_eq_true, Bool.and_eq_true]
  exact ⟨⟨List.all_eq_true.mpr h1, h2⟩, h3⟩

theorem cleanStr_split (s : String) (h : cleanStr s = true) :
    (∀ c ∈ s.data, allowedChar c = true)
    ∧ noDoubleSpace s.data = true ∧ strippedOk s.data = true := by
  unfold cleanStr at h
  rw [Bool.and_eq_true, Bool.and_eq_true] at h
  exact ⟨List.all_eq_true.mp h.1.1, h.1.2, h.2⟩

theorem cleanStr_digits (s : String) (h : s.data.all Char.isDigit = true) :
    cleanStr s = true := by
  have hd : ∀ c ∈ s.data, c.isDigit = true := List.all_eq_true.mp h
  refine cleanStr_parts s (fun c hc => digit_allowed c (hd c hc))
    (nd_of_no_ws _ (fun c hc => digit_not_ws c (hd c hc))) (strippedOk_of _ ?_ ?_)
  · intro c hc
    exact digit_not_ws c (hd c (head?_mem_chr _ c hc))
  · intro c hc
    exact digit_not_ws c (hd c (getLast?_mem_chr _ c hc))

theorem cleanStr_sanitize (s : String) : cleanStr (sanitize_filename s) = true :=
  cleanStr_parts _ (sanitizeL_mem_allowed s.data) (sanitizeL_nd s.data)
    (sanitizeL_stripped s.data)

theorem clean_append (s t : String) (hs : cleanStr s = true) (ht : cleanStr t = true) :
    cleanStr (s ++ t) = true := by
  obtain ⟨hs1, hs2, hs3⟩ := cleanStr_split s hs
  obtain ⟨ht1, ht2, ht3⟩ := cleanStr_split t ht
  have hd := str_data_append s t
  apply cleanStr_parts
  · rw [hd]
    intro c hc
    rcases List.mem_append.mp hc with h1 | h1
    · exact hs1 c h1
    · exact ht1 c h1
  · rw [hd]
    refine nd_append _ _ hs2 ht2 (fun x y hx _ => ?_)
    rw [strippedOk_last s.data hs3 x hx]
    rfl
  · rw [hd]
    refine strippedOk_of _ (fun c hc => ?_) (fun c hc => ?_)
    · cases hsd : s.data with
      | nil => rw [hsd, List.nil_append] at hc; exact strippedOk_head t.data ht3 c hc
      | cons x xs =>
        rw [head_append_left s.data t.data (by rw [hsd]; exact List.cons_ne_nil x xs)] at hc
        exact strippedOk_head s.data hs3 c hc
    · cases htd : t.data with
      | nil => rw [htd, List.append_nil] at hc; exact strippedOk_last s.data hs3 c hc
      | cons x xs =>
        rw [glast_append s.data t.data (by rw [htd]; exact List.cons_ne_nil x xs)] at hc
        exact strippedOk_last t.data ht3 c hc

theorem clean_sep_space (s t : String) (hs : cleanStr s = true) (ht : cleanStr t = true)
    (hs0 : s ≠ "") (ht0 : t ≠ "") : cleanStr (s ++ " " ++ t) = true := by
  obtain ⟨hs1, hs2, hs3⟩ := cleanStr_split s hs
  obtain ⟨ht1, ht2, ht3⟩ := cleanStr_split t ht
  have hsne := str_ne_empty_data s hs0
  have htne := str_ne_empty_data t ht0
  have hd : (s ++ " " ++ t).data = s.data ++ ' ' :: t.data := by
    rw [str_data_append, str_data_append]
    rw [List.append_assoc]
    rfl
  apply cleanStr_parts
  · rw [hd]
    intro c hc
    rcases List.mem_append.mp hc with h1 | h1
    · exact hs1 c h1
    · rcases List.mem_cons.mp h1 with h2 | h2
      · subst h2; decide
      · exact ht1 c h2
  · rw [hd]
    refine nd_append _ _ hs2 ?_ (fun x y hx _ => ?_)
    · refine nd_cons ' ' t.data (fun d hdh => ?_) ht2
      rw [strippedOk_head t.data ht3 d hdh]
      rfl
    · rw [strippedOk_last s.data hs3 x hx]
      rfl
  · rw [hd]
    refine strippedOk_of _ (fun c hc => ?_) (fun c hc => ?_)
    · rw [head_append_left s.data _ hsne] at hc
      exact strippedOk_head s.data hs3 c hc
    · rw [glast_append s.data _ (List.cons_ne_nil ' ' t.data)] at hc
      rw [show ' ' :: t.data = [' '] ++ t.data from rfl, glast_append [' '] t.data htne] at hc
      exact strippedOk_last t.data ht3 c hc

/-! ### Destination-plan invariants and extension policy -/

/-- C8: every derived segment of the destination directory (the caller's
`output_root` path prefix excluded) and the planned filename contain only
allow-listed characters, no run of two whitespace characters and no
leading or trailing whitespace, for every Movie or Episode identity — the
identity's season and episode being the digit strings the data model
guarantees — and either batch extension. -/
theorem c8_plan_components_clean
    (root show_name season episode episode_name movie_name ext : String)
    (hse : season.data.all Char.isDigit = true) (hse0 : season ≠ "")
    (hep : episode.data.all Char.isDigit = true)
    (hext : ext = ".mp4" ∨ ext = ".mkv") :
    (processDirectory_tv_dir root show_name season).tail.all cleanStr = true
    ∧ cleanStr (processDirectory_tv_filename episode episode_name ext) = true
    ∧ (processDirectory_movie_dir root movie_name).tail.all cleanStr = true
    ∧ cleanStr (processDirectory_movie_filename movie_name ext) = true := by
  have hextc : cleanStr ext = true := by rcases hext with rfl | rfl <;> decide
  have hext0 : ext ≠ "" := by rcases hext with rfl | rfl <;> decide
  have hzep : (zfill episode 2).data.all Char.isDigit = true := by
    refine List.all_eq_true.mpr ?_
    exact zfillL_digits episode.data 2 (List.all_eq_true.mp hep)
  have hzepc : cleanStr (zfill episode 2) = true := cleanStr_digits _ hzep
  have hzep0 : zfill episode 2 ≠ "" := zfill_two_ne episode
  have hseason : cleanStr ("Season " ++ season) = true := by
    show cleanStr ("Season" ++ " " ++ season) = true
    exact clean_sep_space "Season" season (by decide) (cleanStr_digits season hse)
      (by decide) hse0
  have htvfile : cleanStr (processDirectory_tv_filename episode episode_name ext) = true := by
    unfold processDirectory_tv_filename
    by_cases hS : sanitize_filename episode_name = ""
    · rw [hS, str_append_empty_right]
      exact clean_sep_space (zfill episode 2) ext hzepc hextc hzep0 hext0
    · exact clean_append (zfill episode 2 ++ " " ++ sanitize_filename episode_name) ext
        (clean_sep_space (zfill episode 2) (sanitize_filename episode_name) hzepc
          (cleanStr_sanitize episode_name) hzep0 hS) hextc
  have hmovfile : cleanStr (processDirectory_movie_filename movie_name ext) = true := by
    unfold processDirectory_movie_filename
    by_cases hS : sanitize_filename movie_name = ""
    · rw [hS, str_empty_append_left]
      exact hextc
    · exact clean_append _ _ (cleanStr_sanitize movie_name) hextc
  refine ⟨?_, htvfile, ?_, hmovfile⟩
  · show ((["TV Shows", sanitize_filename show_name, "Season " ++ season]).all cleanStr) = true
    simp only [List.all_cons, List.all_nil, Bool.and_eq_true]
    exact ⟨by decide, ⟨cleanStr_sanitize show_name, ⟨hseason, trivial⟩⟩⟩
  · show ((["Movies", sanitize_filename movie_name]).all cleanStr) = true
    simp only [List.all_cons, List.all_nil, Bool.and_eq_true]
    exact ⟨by decide, ⟨cleanStr_sanitize movie_name, trivial⟩⟩

/-- Witness for C8 at a concrete episode plan. -/
theorem c8_witness :
    cleanStr (processDirectory_tv_filename "13" "Parkers Big Payday" ".mkv") = true :=
  (c8_plan_components_clean "r" "Gold Rush" "13" "13" "Parkers Big Payday" "Inception"
    ".mkv" (by decide) (by decide) (by decide) (Or.inr rfl)).2.1

/-- C1: at an episode identity with empty episode title, the batch path
(`process_directory`, info.py line 521) derives the filename without the
`"Episode " + episode` fallback, producing "05 .mp4", while the
`convert_file` path (info.py line 665) does apply the fallback and
produces "05 Episode 05.mp4" as the spec states for every path. -/
theorem c1_fallback_divergence :
    processDirectory_tv_filename "05" "" ".mp4" = "05 .mp4"
    ∧ convertFile_tv_filename "05" "" = "05 Episode 05.mp4"
    ∧ processDirectory_tv_filename "05" "" ".mp4" ≠ "05 Episode 05.mp4" := by
  decide

/-- C3 counterexample: the plan built by `process_directory` for
`Episode{"Gold Rush","13","13","Parkers Big Payday"}` with caller
extension ".mkv" carries the ".mkv" suffix, but the pipeline
(`process_file`, info.py line 426) replaces the suffix with ".mp4", so
the destination filename does not end in the caller-supplied extension. -/
theorem c3_counterexample :
    processDirectory_tv_filename "13" "Parkers Big Payday" ".mkv" = "13 Parkers Big Payday.mkv"
    ∧ (".mkv".data).isSuffixOf
        (processDirectory_tv_filename "13" "Parkers Big Payday" ".mkv").data = true
    ∧ processDirectory_tv_destination "13" "Parkers Big Payday" ".mkv" =
        "13 Parkers Big Payday.mp4"
    ∧ (".mkv".data).isSuffixOf
        (processDirectory_tv_destination "13" "Parkers Big Payday" ".mkv").data = false := by
  decide

/-- C3 amended: the planner's directory is
`[output_root, "TV Shows", sanitize(show), "Season " + season]` and its
planned filename ends in exactly the caller-supplied extension, but the
pipeline then replaces the final suffix with ".mp4" in `process_file`, so
the destination filename always ends in ".mp4". -/
theorem c3_extension_policy (root show_name season episode episode_name ext : String) :
    processDirectory_tv_dir root show_name season =
      [root, "TV Shows", sanitize_filename show_name, "Season " ++ season]
    ∧ (∃ stem : String, processDirectory_tv_filename episode episode_name ext = stem ++ ext)
    ∧ (∃ stem : String,
        processDirectory_tv_destination episode episode_name ext = stem ++ ".mp4") := by
  refine ⟨rfl, ⟨zfill episode 2 ++ " " ++ sanitize_filename episode_name, rfl⟩, ?_⟩
  unfold processDirectory_tv_destination withSuffixMp4
  cases lastDotIdx (processDirectory_tv_filename episode episode_name ext).data with
  | none => exact ⟨processDirectory_tv_filename episode episode_name ext, rfl⟩
  | some i =>
    show ∃ stem,
      (if 0 < i ∧ i < (processDirectory_tv_filename episode episode_name ext).data.length - 1
        then (⟨(processDirectory_tv_filename episode episode_name ext).data.take i⟩ : String)
          ++ ".mp4"
        else processDirectory_tv_filename episode episode_name ext ++ ".mp4") = stem ++ ".mp4"
    by_cases hc :
        0 < i ∧ i < (processDirectory_tv_filename episode episode_name ext).data.length - 1
    · rw [if_pos hc]
      exact ⟨⟨(processDirectory_tv_filename episode episode_name ext).data.take i⟩, rfl⟩
    · rw [if_neg hc]
      exact ⟨processDirectory_tv_filename episode episode_name ext, rfl⟩

/-! ### Batch discovery -/

/-- C2 counterexample: "video.avi" and "clip.m4v" carry extensions from
the claimed four-extension allow-list (as the web UI scan confirms), yet
the batch entry point's discovery does not select them. -/
theorem c2_counterexample :
    batchSelected "video.avi" = false ∧ webSelected "video.avi" = true
    ∧ batchSelected "clip.m4v" = false ∧ webSelected "clip.m4v" = true := by
  decide

/-- C2 amended: the batch entry point selects exactly the files whose
name ends in ".mp4" or ".mkv" with each letter in either case; ".avi" and
".m4v" (part of the web UI's allow-list only) are never selected by the
batch entry point. -/
theorem c2_batch_selection (name : String) :
    batchSelected name = true ↔
      ((∃ stem : List Char, ∃ c1 c2 : Char,
          name.data = stem ++ ['.', c1, c2, '4']
          ∧ (c1 = 'M' ∨ c1 = 'm') ∧ (c2 = 'P' ∨ c2 = 'p'))
        ∨ (∃ stem : List Char, ∃ c1 c2 c3 : Char,
          name.data = stem ++ ['.', c1, c2, c3]
          ∧ (c1 = 'M' ∨ c1 = 'm') ∧ (c2 = 'K' ∨ c2 = 'k') ∧ (c3 = 'V' ∨ c3 = 'v'))) := by
  unfold batchSelected
  constructor
  · intro h
    rcases hr : name.data.reverse with _ | ⟨a3, _ | ⟨a2, _ | ⟨a1, _ | ⟨a0, rest⟩⟩⟩⟩
    · rw [hr] at h; simp [batchSelRev] at h
    · rw [hr] at h; simp [batchSelRev] at h
    · rw [hr] at h; simp [batchSelRev] at h
    · rw [hr] at h; simp [batchSelRev] at h
    · rw [hr] at h
      have hl : name.data = rest.reverse ++ [a0, a1, a2, a3] := by
        have h2 : name.data = (a3 :: a2 :: a1 :: a0 :: rest).reverse := by
          rw [← hr, List.reverse_reverse]
        rw [h2]
        simp
      simp only [batchSelRev, Bool.and_eq_true, Bool.or_eq_true, decide_eq_true_eq] at h
      obtain ⟨h0, hcase⟩ := h
      subst h0
      rcases hcase with ⟨⟨hc1, hc2⟩, hc3⟩ | ⟨⟨hc1, hc2⟩, hc3⟩
      · subst hc3
        exact Or.inl ⟨rest.reverse, a1, a2, hl, hc1, hc2⟩
      · exact Or.inr ⟨rest.reverse, a1, a2, a3, hl, hc1, hc2, hc3⟩
  · rintro (⟨stem, c1, c2, hdata, hc1, hc2⟩ | ⟨stem, c1, c2, c3, hdata, hc1, hc2, hc3⟩)
    · have hrev : name.data.reverse = '4' :: c2 :: c1 :: '.' :: stem.reverse := by
        rw [hdata]
        simp
      rw [hrev]
      rcases hc1 with rfl | rfl <;> rcases hc2 with rfl | rfl <;> rfl
    · have hrev : name.data.reverse = c3 :: c2 :: c1 :: '.' :: stem.reverse := by
        rw [hdata]
        simp
      rw [hrev]
      rcases hc1 with rfl | rfl <;> rcases hc2 with rfl | rfl <;>
        rcases hc3 with rfl | rfl <;> rfl
